import Mathlib

/-!
Shallow embedding of `src/generate_problem.py` (MSCFLP instance generator).

Modelling conventions:
* Python floats are modelled as exact rationals (`ℚ`); coordinates are pairs
  of rationals.  Every distance comparison in the source compares a Euclidean
  distance (`math.hypot`) against a nonnegative threshold, so we work with
  squared distances throughout: `dist p q < m  ↔  dist2 p q < m^2`.  The
  parameters `sr2` below stand for `service_range ** 2`; the derived bound
  `minimum_distance = 0.1 * service_range` becomes `md2 = sr2 / 100`.
* The ambient NumPy random source is modelled as explicit streams:
  `ρ` for coordinate draws (`np.random.random()` pairs), `σ` for
  `np.random.randint(services)` draws, `γo`/`γe` for the cost draws.
* The unbounded `while` loops of the source (rejection sampling and the two
  repair loops) are modelled with explicit fuel; running out of fuel returns
  `none`, which models divergence of the source loop (the source has no
  iteration cap and no error path there).
* The `networkx` undirected graph is modelled as a `Finset (ℕ × ℕ)` of edges
  oriented `(smaller index, larger index)`; nodes `0, …, locations-1` are the
  service locations and `locations, …, locations+points-1` the demand points,
  exactly as in the source.
-/

namespace MSLSCP

abbrev Point := ℚ × ℚ

/-- Squared Euclidean distance; `distance` in the source is `Real.sqrt` of this. -/
def dist2 (p q : Point) : ℚ := (q.1 - p.1) ^ 2 + (q.2 - p.2) ^ 2

/-- Proposition form of being at (squared) distance at least `md2`. -/
def Far (md2 : ℚ) (p q : Point) : Prop := md2 ≤ dist2 p q

instance (md2 : ℚ) (p q : Point) : Decidable (Far md2 p q) := by
  unfold Far; infer_instance

/-- Rejection test of the source: the candidate is too close when some existing
coordinate is at distance `< minimum_distance` (squared comparison). -/
def tooClose (md2 : ℚ) (cs : List Point) (p : Point) : Bool :=
  cs.any fun c => decide (dist2 c p < md2)

/-- One accepted draw of the rejection-sampling loop
(`while too_close: new_coord = (np.random.random(), np.random.random())`):
keep drawing from the stream `ρ` (starting at stream position `pos`) until a
point clears the minimum-distance test against `cs`.  `fuel` bounds the number
of draws; `none` models divergence of the unbounded source loop. -/
def sampleOne (md2 : ℚ) (ρ : ℕ → Point) (cs : List Point) : ℕ → ℕ → Option (Point × ℕ)
  | 0, _ => none
  | fuel + 1, pos =>
    if tooClose md2 cs (ρ pos) then sampleOne md2 ρ cs fuel (pos + 1)
    else some (ρ pos, pos + 1)

/-- Initial placement loop (`while node_idx < total_nodes`): append `n` fresh
points, each accepted against all previously accepted coordinates. -/
def sampleN (md2 : ℚ) (ρ : ℕ → Point) (sfuel : ℕ) : ℕ → List Point → ℕ → Option (List Point × ℕ)
  | 0, cs, pos => some (cs, pos)
  | n + 1, cs, pos =>
    match sampleOne md2 ρ cs sfuel pos with
    | none => none
    | some (p, pos') => sampleN md2 ρ sfuel n (cs ++ [p]) pos'

/-- Edge set of `nx.random_geometric_graph(total_nodes, service_range, pos=coords)`:
an edge `(i, j)` with `i < j` for every pair at distance at most the radius. -/
def geomEdges (sr2 : ℚ) (cs : List Point) : Finset (ℕ × ℕ) :=
  (Finset.range cs.length ×ˢ Finset.range cs.length).filter
    fun e => e.1 < e.2 ∧ dist2 (cs.getD e.1 (0, 0)) (cs.getD e.2 (0, 0)) ≤ sr2

/-- The two edge-removal loops of the source: delete every edge joining two
locations (both endpoints `< L`) and every edge joining two demand points
(both endpoints in `[L, T)`). -/
def removeSameClass (L T : ℕ) (E : Finset (ℕ × ℕ)) : Finset (ℕ × ℕ) :=
  E.filter fun e =>
    ¬(e.1 < L ∧ e.2 < L) ∧ ¬(L ≤ e.1 ∧ e.1 < T ∧ L ≤ e.2 ∧ e.2 < T)

/-- Degree of node `n`, i.e. `len(G[n])` in the source. -/
def degree (E : Finset (ℕ × ℕ)) (n : ℕ) : ℕ :=
  (E.filter fun e => e.1 = n ∨ e.2 = n).card

/-- Bipartite-ness of an edge set: every edge goes from a location (index
`< L`) to a demand point (index in `[L, T)`). -/
def CrossOnly (L T : ℕ) (E : Finset (ℕ × ℕ)) : Prop :=
  ∀ e ∈ E, e.1 < L ∧ L ≤ e.2 ∧ e.2 < T

instance (L T : ℕ) (E : Finset (ℕ × ℕ)) : Decidable (CrossOnly L T E) := by
  unfold CrossOnly; infer_instance

/-- Locations adjacent to a demand point, in increasing index order
(`G[dem_idx].keys()` restricted to the location range, which post-filter is
all of it). -/
def locNeighbors (L : ℕ) (E : Finset (ℕ × ℕ)) (dem : ℕ) : List ℕ :=
  (List.range L).filter fun loc => decide ((loc, dem) ∈ E)

/-- Edge update of the demand-point repair loop: after moving `dem`, add an
edge to every location within the service range (`for loc_idx in range(locations)`). -/
def addDemEdges (sr2 : ℚ) (L : ℕ) (cs : List Point) (dem : ℕ) (E : Finset (ℕ × ℕ)) :
    Finset (ℕ × ℕ) :=
  E ∪ ((Finset.range L).filter fun loc =>
        dist2 (cs.getD loc (0, 0)) (cs.getD dem (0, 0)) ≤ sr2).image fun loc => (loc, dem)

/-- Edge update of the location repair loop: after moving `loc`, add an edge to
every demand point within the service range
(`for dem_idx in range(locations, total_nodes)`). -/
def addLocEdges (sr2 : ℚ) (L T : ℕ) (cs : List Point) (loc : ℕ) (E : Finset (ℕ × ℕ)) :
    Finset (ℕ × ℕ) :=
  E ∪ ((Finset.Ico L T).filter fun dem =>
        dist2 (cs.getD dem (0, 0)) (cs.getD loc (0, 0)) ≤ sr2).image fun dem => (loc, dem)

/-- Mutable state of the generation pipeline: the coordinate table, the edge
set, and the current position in the coordinate stream. -/
structure St where
  cs : List Point
  E : Finset (ℕ × ℕ)
  pos : ℕ
deriving DecidableEq

/-- Repair loop for one demand point (`while len(G[dem_idx]) == 0`): as long as
the node is isolated, sample a fresh coordinate (rejection sampling against all
current coordinates), relocate the node there and add edges to all in-range
locations.  `rfuel` bounds the number of relocations. -/
def repairDemNode (sr2 md2 : ℚ) (ρ : ℕ → Point) (L : ℕ) (sfuel : ℕ) (dem : ℕ) :
    ℕ → St → Option St
  | 0, st => if degree st.E dem = 0 then none else some st
  | rfuel + 1, st =>
    if degree st.E dem = 0 then
      match sampleOne md2 ρ st.cs sfuel st.pos with
      | none => none
      | some (p, pos') =>
        let cs' := st.cs.set dem p
        repairDemNode sr2 md2 ρ L sfuel dem rfuel ⟨cs', addDemEdges sr2 L cs' dem st.E, pos'⟩
    else some st

/-- Repair loop for one location (`while len(G[loc_idx]) == 0`), symmetric to
`repairDemNode` but adding edges towards the demand points. -/
def repairLocNode (sr2 md2 : ℚ) (ρ : ℕ → Point) (L T : ℕ) (sfuel : ℕ) (loc : ℕ) :
    ℕ → St → Option St
  | 0, st => if degree st.E loc = 0 then none else some st
  | rfuel + 1, st =>
    if degree st.E loc = 0 then
      match sampleOne md2 ρ st.cs sfuel st.pos with
      | none => none
      | some (p, pos') =>
        let cs' := st.cs.set loc p
        repairLocNode sr2 md2 ρ L T sfuel loc rfuel ⟨cs', addLocEdges sr2 L T cs' loc st.E, pos'⟩
    else some st

/-- First repair pass (`for dem_idx in range(locations, total_nodes)`). -/
def repairDems (sr2 md2 : ℚ) (ρ : ℕ → Point) (L : ℕ) (sfuel rfuel : ℕ) :
    List ℕ → St → Option St
  | [], st => some st
  | dem :: rest, st =>
    match repairDemNode sr2 md2 ρ L sfuel dem rfuel st with
    | none => none
    | some st' => repairDems sr2 md2 ρ L sfuel rfuel rest st'

/-- Second repair pass (`for loc_idx in range(locations)`). -/
def repairLocs (sr2 md2 : ℚ) (ρ : ℕ → Point) (L T : ℕ) (sfuel rfuel : ℕ) :
    List ℕ → St → Option St
  | [], st => some st
  | loc :: rest, st =>
    match repairLocNode sr2 md2 ρ L T sfuel loc rfuel st with
    | none => none
    | some st' => repairLocs sr2 md2 ρ L T sfuel rfuel rest st'

/-- Service-assignment loop of the source, translated literally: for each
demand point emit one `(service, location, point)` triple per connected
location using the current `service_requested`, then update
`service_requested`/`all_services_requested` exactly as the source does.
The comparison `service_requested == services - 1` is taken over `ℤ`, as in
Python.  `σ` models the `np.random.randint(services)` draws. -/
def assignLoop (services L : ℕ) (σ : ℕ → ℕ) (E : Finset (ℕ × ℕ)) :
    List ℕ → ℕ → Bool → ℕ → List (ℕ × ℕ × ℕ)
  | [], _, _, _ => []
  | dem :: rest, svc, allReq, rpos =>
    ((locNeighbors L E dem).map fun loc => (svc, loc, dem - L)) ++
      (if allReq then assignLoop services L σ E rest (σ rpos) true (rpos + 1)
       else if (svc : ℤ) = (services : ℤ) - 1 then assignLoop services L σ E rest svc true rpos
       else assignLoop services L σ E rest (svc + 1) false rpos)

/-- Sequence of `service_requested` values actually used per demand point by
`assignLoop` (same state machine, records dropped). -/
def loopIds (services : ℕ) (σ : ℕ → ℕ) : List ℕ → ℕ → Bool → ℕ → List ℕ
  | [], _, _, _ => []
  | _ :: rest, svc, allReq, rpos =>
    svc ::
      (if allReq then loopIds services σ rest (σ rpos) true (rpos + 1)
       else if (svc : ℤ) = (services : ℤ) - 1 then loopIds services σ rest svc true rpos
       else loopIds services σ rest (svc + 1) false rpos)

/-- Records obtained by giving the `k`-th demand point the `k`-th service id of
`ids` and emitting one triple per connected location. -/
def joinRecs (L : ℕ) (E : Finset (ℕ × ℕ)) : List ℕ → List ℕ → List (ℕ × ℕ × ℕ)
  | [], _ => []
  | _ :: _, [] => []
  | dem :: dems, s :: ids =>
    ((locNeighbors L E dem).map fun loc => (s, loc, dem - L)) ++ joinRecs L E dems ids

/-- Closed form of the service-id policy the source actually implements:
ids `0, …, services-1` for the first `services` demand points, then the id
`services-1` once more for the demand point right after the cycle completes,
and only from the following demand point on the random draws `σ 0, σ 1, …`. -/
def repoIdSeq (services : ℕ) (σ : ℕ → ℕ) (k : ℕ) : ℕ :=
  if k < services then k
  else if k = services then services - 1
  else σ (k - services - 1)

/-- Modelled from the spec: the service-id policy as §4.5 words it — round-robin
`0, …, services-1` for the first `services` demand points, then uniform-random
ids for all remaining demand points. -/
def specIdSeq (services : ℕ) (σ : ℕ → ℕ) (k : ℕ) : ℕ :=
  if k < services then k else σ (k - services)

/-- Lexicographic order on `(service, location, point)` triples — the sort key
of `data.sort_values(by=['service', 'location', 'point'])`.  Rows with equal
keys are entirely equal rows, so any sort by this key produces the same list
as the pandas sort. -/
def tripleLe (a b : ℕ × ℕ × ℕ) : Prop :=
  a.1 < b.1 ∨ (a.1 = b.1 ∧ (a.2.1 < b.2.1 ∨ (a.2.1 = b.2.1 ∧ a.2.2 ≤ b.2.2)))

instance : DecidableRel tripleLe := by
  unfold tripleLe; infer_instance

instance : IsTotal (ℕ × ℕ × ℕ) tripleLe := by
  constructor; intro a b; unfold tripleLe; omega

instance : IsTrans (ℕ × ℕ × ℕ) tripleLe := by
  constructor; intro a b c; unfold tripleLe; omega

/-- Opening costs: `(4000 + (5000 - 4000) * np.random.random_sample(locations)).astype(int)`. -/
def openingCosts (γo : ℕ → ℚ) (L : ℕ) : List ℤ :=
  (List.range L).map fun i => ⌊(4000 : ℚ) + (5000 - 4000) * γo i⌋

/-- Equipping costs: `(200 + (500 - 200) * np.random.random_sample(services)).astype(int)`. -/
def equipCosts (γe : ℕ → ℚ) (S : ℕ) : List ℤ :=
  (List.range S).map fun i => ⌊(200 : ℚ) + (500 - 200) * γe i⌋

/-- Row of the final table produced by `pd.concat([...], axis=1)`; `none`
models a NaN cell produced by the positional outer join. -/
structure Row where
  service : Option ℕ
  location : Option ℕ
  point : Option ℕ
  openingCost : Option ℤ
  equipCost : Option ℤ
deriving DecidableEq, Inhabited

/-- Final table: `pd.concat([sorted_data, data_open, data_equip], axis=1)` —
a positional (index-aligned, outer) concatenation of the sorted record columns
with the two cost side tables. -/
def finalTable (sorted : List (ℕ × ℕ × ℕ)) (oc ec : List ℤ) : List Row :=
  (List.range (max sorted.length (max oc.length ec.length))).map fun i =>
    { service := (sorted[i]?).map fun t => t.1
      location := (sorted[i]?).map fun t => t.2.1
      point := (sorted[i]?).map fun t => t.2.2
      openingCost := oc[i]?
      equipCost := ec[i]? }

/-- Result of a generation run: the pre-flight configuration error
(`print(...); exit()`), divergence of one of the unbounded loops, or a
completed instance. -/
inductive GenResult (α : Type) where
  | configError (msg : String)
  | diverged
  | ok (a : α)
deriving DecidableEq

/-- Everything the run produces. -/
structure Output where
  coords : List Point
  graph : Finset (ℕ × ℕ)
  records : List (ℕ × ℕ × ℕ)
  sortedRecords : List (ℕ × ℕ × ℕ)
  openingCosts : List ℤ
  equipCosts : List ℤ
  table : List Row
deriving DecidableEq

/-- Demand-point node indices `range(locations, total_nodes)`. -/
def demIdxs (L P : ℕ) : List ℕ := List.range' L P

/-- Location node indices `range(locations)`. -/
def locIdxs (L : ℕ) : List ℕ := List.range L

/-- State after initial placement, geometric-graph construction and same-class
edge removal. -/
def initialState (L P : ℕ) (sr2 md2 : ℚ) (ρ : ℕ → Point) (sfuel : ℕ) : Option St :=
  match sampleN md2 ρ sfuel (L + P) [] 0 with
  | none => none
  | some (cs, pos) => some ⟨cs, removeSameClass L (L + P) (geomEdges sr2 cs), pos⟩

/-- The whole of `generate_problem_file` (file writing and plotting elided):
pre-flight check, Poisson-disk placement, geometric graph, same-class edge
removal, demand-point repair pass, location repair pass, service assignment,
sort, cost side tables, positional concatenation.  `sr2` is the square of
`service_range`; the source's `minimum_distance = 0.1 * service_range` becomes
the squared bound `sr2 / 100`. -/
def generate (services L P : ℕ) (sr2 : ℚ) (ρ : ℕ → Point) (σ : ℕ → ℕ)
    (γo γe : ℕ → ℚ) (sfuel rfuel : ℕ) : GenResult Output :=
  if services > P then
    .configError "Error: more services than demand points requested. Exiting."
  else
    let T := L + P
    let md2 := sr2 / 100
    match initialState L P sr2 md2 ρ sfuel with
    | none => .diverged
    | some st0 =>
      match repairDems sr2 md2 ρ L sfuel rfuel (demIdxs L P) st0 with
      | none => .diverged
      | some st1 =>
        match repairLocs sr2 md2 ρ L T sfuel rfuel (locIdxs L) st1 with
        | none => .diverged
        | some st2 =>
          let recs := assignLoop services L σ st2.E (demIdxs L P) 0 false 0
          let sorted := recs.insertionSort tripleLe
          let oc := openingCosts γo L
          let ec := equipCosts γe services
          .ok ⟨st2.cs, st2.E, recs, sorted, oc, ec, finalTable sorted oc ec⟩

/-- Coordinate stream witnessing divergence: `(0,0)` first, then always the
same point `(1/2, 1/2)`. -/
def rhoDiv : ℕ → Point := fun n => if n = 0 then (0, 0) else (1/2, 1/2)

/-- Coordinate stream for a small successful run. -/
def rhoW : ℕ → Point := fun n => if n = 0 then (0, 0) else (1/2, 1/2)

/-- Concrete bipartite graph on locations `{0, 1}` and demand points
`{2, 3, 4}` used to exhibit the service-id policy. -/
def eceGraph : Finset (ℕ × ℕ) := {(0, 2), (0, 3), (0, 4)}

/-- Pipeline state of the small successful run after placement and filtering. -/
def stW : St := ⟨[(0, 0), (1/2, 1/2)], {(0, 1)}, 2⟩

/-- Concrete output of the small successful run `generate 1 1 1 1 rhoW …`. -/
def outW : Output :=
  { coords := [(0, 0), (1/2, 1/2)]
    graph := {(0, 1)}
    records := [(0, 0, 0)]
    sortedRecords := [(0, 0, 0)]
    openingCosts := [4000]
    equipCosts := [200]
    table := [{ service := some 0, location := some 0, point := some 0,
                openingCost := some 4000, equipCost := some 200 }] }

/-! ### Basic geometry lemmas -/

theorem dist2_comm (p q : Point) : dist2 p q = dist2 q p := by
  unfold dist2; ring

theorem far_symm {md2 : ℚ} {p q : Point} (h : Far md2 p q) : Far md2 q p := by
  unfold Far at h ⊢; rw [dist2_comm]; exact h

/-! ### Rejection-sampling lemmas -/

theorem tooClose_false_iff {md2 : ℚ} {cs : List Point} {p : Point} :
    tooClose md2 cs p = false ↔ ∀ c ∈ cs, Far md2 c p := by
  unfold tooClose Far
  simp [List.any_eq_false, not_lt]

theorem sampleOne_far {md2 : ℚ} {ρ : ℕ → Point} {cs : List Point} :
    ∀ {fuel pos : ℕ} {p : Point} {pos' : ℕ},
      sampleOne md2 ρ cs fuel pos = some (p, pos') → ∀ c ∈ cs, Far md2 c p := by
  intro fuel
  induction fuel with
  | zero => intro pos p pos' h; simp [sampleOne] at h
  | succ f ih =>
    intro pos p pos' h
    by_cases htc : tooClose md2 cs (ρ pos)
    · rw [sampleOne, if_pos htc] at h
      exact ih h
    · rw [sampleOne, if_neg htc] at h
      obtain ⟨hp, _⟩ := Prod.mk.injEq .. ▸ Option.some.injEq .. ▸ h
      subst hp
      exact tooClose_false_iff.mp (Bool.not_eq_true _ ▸ htc)

theorem sampleN_sep {md2 : ℚ} {ρ : ℕ → Point} {sfuel : ℕ} :
    ∀ {n : ℕ} {cs : List Point} {pos : ℕ} {cs' : List Point} {pos' : ℕ},
      sampleN md2 ρ sfuel n cs pos = some (cs', pos') →
      List.Pairwise (Far md2) cs → List.Pairwise (Far md2) cs' := by
  intro n
  induction n with
  | zero =>
    intro cs pos cs' pos' h hsep
    simp [sampleN] at h
    rw [← h.1]; exact hsep
  | succ m ih =>
    intro cs pos cs' pos' h hsep
    rw [sampleN] at h
    cases hso : sampleOne md2 ρ cs sfuel pos with
    | none => rw [hso] at h; simp at h
    | some v =>
      rw [hso] at h
      have hfar := sampleOne_far hso
      refine ih h ?_
      rw [List.pairwise_append]
      refine ⟨hsep, List.pairwise_singleton _ _, ?_⟩
      intro a ha b hb
      rw [List.mem_singleton] at hb
      subst hb
      exact hfar a ha

theorem sampleN_length {md2 : ℚ} {ρ : ℕ → Point} {sfuel : ℕ} :
    ∀ {n : ℕ} {cs : List Point} {pos : ℕ} {cs' : List Point} {pos' : ℕ},
      sampleN md2 ρ sfuel n cs pos = some (cs', pos') → cs'.length = cs.length + n := by
  intro n
  induction n with
  | zero =>
    intro cs pos cs' pos' h
    simp [sampleN] at h
    rw [← h.1]
    omega
  | succ m ih =>
    intro cs pos cs' pos' h
    rw [sampleN] at h
    cases hso : sampleOne md2 ρ cs sfuel pos with
    | none => rw [hso] at h; simp at h
    | some v =>
      rw [hso] at h
      have := ih h
      simp at this
      omega

/-- Relocating one node to a point far from every current coordinate keeps the
coordinate list pairwise-separated. -/
theorem pairwise_far_set {md2 : ℚ} :
    ∀ {cs : List Point} {k : ℕ} {p : Point},
      List.Pairwise (Far md2) cs → (∀ c ∈ cs, Far md2 c p) →
      List.Pairwise (Far md2) (cs.set k p) := by
  intro cs
  induction cs with
  | nil => intro k p _ _; simp
  | cons a l ih =>
    intro k p hsep hfar
    rw [List.pairwise_cons] at hsep
    cases k with
    | zero =>
      rw [List.set_cons_zero, List.pairwise_cons]
      refine ⟨fun b hb => far_symm (hfar b (List.mem_cons_of_mem a hb)), hsep.2⟩
    | succ j =>
      rw [List.set_cons_succ, List.pairwise_cons]
      constructor
      · intro b hb
        rcases List.mem_or_eq_of_mem_set hb with hbl | hbp
        · exact hsep.1 b hbl
        · subst hbp; exact hfar a (List.mem_cons_self a l)
      · exact ih hsep.2 fun c hc => hfar c (List.mem_cons_of_mem a hc)

/-! ### Degree and edge-set lemmas -/

theorem degree_mono {E E' : Finset (ℕ × ℕ)} (h : E ⊆ E') (n : ℕ) :
    degree E n ≤ degree E' n := by
  unfold degree
  exact Finset.card_le_card (Finset.filter_subset_filter _ h)

theorem degree_pos_mono {E E' : Finset (ℕ × ℕ)} {n : ℕ} (hd : degree E n ≠ 0)
    (h : E ⊆ E') : degree E' n ≠ 0 := by
  have := degree_mono h n
  omega

theorem addDemEdges_sub (sr2 : ℚ) (L : ℕ) (cs : List Point) (dem : ℕ)
    (E : Finset (ℕ × ℕ)) : E ⊆ addDemEdges sr2 L cs dem E :=
  Finset.subset_union_left

theorem addDemEdges_cross {sr2 : ℚ} {L T : ℕ} {cs : List Point} {dem : ℕ}
    {E : Finset (ℕ × ℕ)} (hE : CrossOnly L T E) (h1 : L ≤ dem) (h2 : dem < T) :
    CrossOnly L T (addDemEdges sr2 L cs dem E) := by
  intro e he
  rcases Finset.mem_union.mp he with h | h
  · exact hE e h
  · obtain ⟨loc, hloc, rfl⟩ := Finset.mem_image.mp h
    have := Finset.mem_range.mp (Finset.mem_filter.mp hloc).1
    exact ⟨this, h1, h2⟩

theorem addLocEdges_sub (sr2 : ℚ) (L T : ℕ) (cs : List Point) (loc : ℕ)
    (E : Finset (ℕ × ℕ)) : E ⊆ addLocEdges sr2 L T cs loc E :=
  Finset.subset_union_left

theorem addLocEdges_cross {sr2 : ℚ} {L T : ℕ} {cs : List Point} {loc : ℕ}
    {E : Finset (ℕ × ℕ)} (hE : CrossOnly L T E) (h1 : loc < L) :
    CrossOnly L T (addLocEdges sr2 L T cs loc E) := by
  intro e he
  rcases Finset.mem_union.mp he with h | h
  · exact hE e h
  · obtain ⟨dem, hdem, rfl⟩ := Finset.mem_image.mp h
    have := Finset.mem_Ico.mp (Finset.mem_filter.mp hdem).1
    exact ⟨h1, this.1, this.2⟩

/-! ### Demand-point repair-loop lemmas -/

theorem repairDemNode_skip {sr2 md2 : ℚ} {ρ : ℕ → Point} {L sfuel dem : ℕ}
    {rfuel : ℕ} {st : St} (h : degree st.E dem ≠ 0) :
    repairDemNode sr2 md2 ρ L sfuel dem rfuel st = some st := by
  cases rfuel with
  | zero => rw [repairDemNode, if_neg h]
  | succ f => rw [repairDemNode, if_neg h]

theorem repairDemNode_sub {sr2 md2 : ℚ} {ρ : ℕ → Point} {L sfuel dem : ℕ} :
    ∀ {rfuel : ℕ} {st st' : St},
      repairDemNode sr2 md2 ρ L sfuel dem rfuel st = some st' → st.E ⊆ st'.E := by
  intro rfuel
  induction rfuel with
  | zero =>
    intro st st' h
    rw [repairDemNode] at h
    by_cases hd : degree st.E dem = 0
    · rw [if_pos hd] at h; exact absurd h (by simp)
    · rw [if_neg hd] at h
      cases h; exact Finset.Subset.refl _
  | succ f ih =>
    intro st st' h
    rw [repairDemNode] at h
    by_cases hd : degree st.E dem = 0
    · rw [if_pos hd] at h
      cases hso : sampleOne md2 ρ st.cs sfuel st.pos with
      | none => rw [hso] at h; exact absurd h (by simp)
      | some v =>
        obtain ⟨p, pos'⟩ := v
        rw [hso] at h
        exact fun e he =>
          ih h (addDemEdges_sub sr2 L (st.cs.set dem p) dem st.E he)
    · rw [if_neg hd] at h
      cases h; exact Finset.Subset.refl _

theorem repairDemNode_deg {sr2 md2 : ℚ} {ρ : ℕ → Point} {L sfuel dem : ℕ} :
    ∀ {rfuel : ℕ} {st st' : St},
      repairDemNode sr2 md2 ρ L sfuel dem rfuel st = some st' →
      degree st'.E dem ≠ 0 := by
  intro rfuel
  induction rfuel with
  | zero =>
    intro st st' h
    rw [repairDemNode] at h
    by_cases hd : degree st.E dem = 0
    · rw [if_pos hd] at h; exact absurd h (by simp)
    · rw [if_neg hd] at h; cases h; exact hd
  | succ f ih =>
    intro st st' h
    rw [repairDemNode] at h
    by_cases hd : degree st.E dem = 0
    · rw [if_pos hd] at h
      cases hso : sampleOne md2 ρ st.cs sfuel st.pos with
      | none => rw [hso] at h; exact absurd h (by simp)
      | some v =>
        obtain ⟨p, pos'⟩ := v
        rw [hso] at h
        exact ih h
    · rw [if_neg hd] at h; cases h; exact hd

theorem repairDemNode_frame {sr2 md2 : ℚ} {ρ : ℕ → Point} {L sfuel dem : ℕ} :
    ∀ {rfuel : ℕ} {st st' : St},
      repairDemNode sr2 md2 ρ L sfuel dem rfuel st = some st' →
      ∀ j, j ≠ dem → st'.cs.getD j (0, 0) = st.cs.getD j (0, 0) := by
  intro rfuel
  induction rfuel with
  | zero =>
    intro st st' h
    rw [repairDemNode] at h
    by_cases hd : degree st.E dem = 0
    · rw [if_pos hd] at h; exact absurd h (by simp)
    · rw [if_neg hd] at h; cases h; intro j _; rfl
  | succ f ih =>
    intro st st' h
    rw [repairDemNode] at h
    by_cases hd : degree st.E dem = 0
    · rw [if_pos hd] at h
      cases hso : sampleOne md2 ρ st.cs sfuel st.pos with
      | none => rw [hso] at h; exact absurd h (by simp)
      | some v =>
        obtain ⟨p, pos'⟩ := v
        rw [hso] at h
        intro j hj
        rw [ih h j hj]
        show (st.cs.set dem p).getD j (0, 0) = st.cs.getD j (0, 0)
        simp [List.getElem?_set_ne (Ne.symm hj)]
    · rw [if_neg hd] at h; cases h; intro j _; rfl

theorem repairDemNode_len {sr2 md2 : ℚ} {ρ : ℕ → Point} {L sfuel dem : ℕ} :
    ∀ {rfuel : ℕ} {st st' : St},
      repairDemNode sr2 md2 ρ L sfuel dem rfuel st = some st' →
      st'.cs.length = st.cs.length := by
  intro rfuel
  induction rfuel with
  | zero =>
    intro st st' h
    rw [repairDemNode] at h
    by_cases hd : degree st.E dem = 0
    · rw [if_pos hd] at h; exact absurd h (by simp)
    · rw [if_neg hd] at h; cases h; rfl
  | succ f ih =>
    intro st st' h
    rw [repairDemNode] at h
    by_cases hd : degree st.E dem = 0
    · rw [if_pos hd] at h
      cases hso : sampleOne md2 ρ st.cs sfuel st.pos with
      | none => rw [hso] at h; exact absurd h (by simp)
      | some v =>
        obtain ⟨p, pos'⟩ := v
        rw [hso] at h
        rw [ih h]
        simp
    · rw [if_neg hd] at h; cases h; rfl

theorem repairDemNode_sep {sr2 md2 : ℚ} {ρ : ℕ → Point} {L sfuel dem : ℕ} :
    ∀ {rfuel : ℕ} {st st' : St},
      repairDemNode sr2 md2 ρ L sfuel dem rfuel st = some st' →
      List.Pairwise (Far md2) st.cs → List.Pairwise (Far md2) st'.cs := by
  intro rfuel
  induction rfuel with
  | zero =>
    intro st st' h hsep
    rw [repairDemNode] at h
    by_cases hd : degree st.E dem = 0
    · rw [if_pos hd] at h; exact absurd h (by simp)
    · rw [if_neg hd] at h; cases h; exact hsep
  | succ f ih =>
    intro st st' h hsep
    rw [repairDemNode] at h
    by_cases hd : degree st.E dem = 0
    · rw [if_pos hd] at h
      cases hso : sampleOne md2 ρ st.cs sfuel st.pos with
      | none => rw [hso] at h; exact absurd h (by simp)
      | some v =>
        obtain ⟨p, pos'⟩ := v
        rw [hso] at h
        refine ih h ?_
        exact pairwise_far_set hsep (sampleOne_far hso)
    · rw [if_neg hd] at h; cases h; exact hsep

theorem repairDemNode_cross {sr2 md2 : ℚ} {ρ : ℕ → Point} {L T sfuel dem : ℕ}
    (h1 : L ≤ dem) (h2 : dem < T) :
    ∀ {rfuel : ℕ} {st st' : St},
      repairDemNode sr2 md2 ρ L sfuel dem rfuel st = some st' →
      CrossOnly L T st.E → CrossOnly L T st'.E := by
  intro rfuel
  induction rfuel with
  | zero =>
    intro st st' h hcr
    rw [repairDemNode] at h
    by_cases hd : degree st.E dem = 0
    · rw [if_pos hd] at h; exact absurd h (by simp)
    · rw [if_neg hd] at h; cases h; exact hcr
  | succ f ih =>
    intro st st' h hcr
    rw [repairDemNode] at h
    by_cases hd : degree st.E dem = 0
    · rw [if_pos hd] at h
      cases hso : sampleOne md2 ρ st.cs sfuel st.pos with
      | none => rw [hso] at h; exact absurd h (by simp)
      | some v =>
        obtain ⟨p, pos'⟩ := v
        rw [hso] at h
        exact ih h (addDemEdges_cross hcr h1 h2)
    · rw [if_neg hd] at h; cases h; exact hcr

/-! ### Location repair-loop lemmas (mirror images of the demand-point ones) -/

theorem repairLocNode_skip {sr2 md2 : ℚ} {ρ : ℕ → Point} {L T sfuel loc : ℕ}
    {rfuel : ℕ} {st : St} (h : degree st.E loc ≠ 0) :
    repairLocNode sr2 md2 ρ L T sfuel loc rfuel st = some st := by
  cases rfuel with
  | zero => rw [repairLocNode, if_neg h]
  | succ f => rw [repairLocNode, if_neg h]

theorem repairLocNode_sub {sr2 md2 : ℚ} {ρ : ℕ → Point} {L T sfuel loc : ℕ} :
    ∀ {rfuel : ℕ} {st st' : St},
      repairLocNode sr2 md2 ρ L T sfuel loc rfuel st = some st' → st.E ⊆ st'.E := by
  intro rfuel
  induction rfuel with
  | zero =>
    intro st st' h
    rw [repairLocNode] at h
    by_cases hd : degree st.E loc = 0
    · rw [if_pos hd] at h; exact absurd h (by simp)
    · rw [if_neg hd] at h; cases h; exact Finset.Subset.refl _
  | succ f ih =>
    intro st st' h
    rw [repairLocNode] at h
    by_cases hd : degree st.E loc = 0
    · rw [if_pos hd] at h
      cases hso : sampleOne md2 ρ st.cs sfuel st.pos with
      | none => rw [hso] at h; exact absurd h (by simp)
      | some v =>
        obtain ⟨p, pos'⟩ := v
        rw [hso] at h
        exact fun e he =>
          ih h (addLocEdges_sub sr2 L T (st.cs.set loc p) loc st.E he)
    · rw [if_neg hd] at h; cases h; exact Finset.Subset.refl _

theorem repairLocNode_deg {sr2 md2 : ℚ} {ρ : ℕ → Point} {L T sfuel loc : ℕ} :
    ∀ {rfuel : ℕ} {st st' : St},
      repairLocNode sr2 md2 ρ L T sfuel loc rfuel st = some st' →
      degree st'.E loc ≠ 0 := by
  intro rfuel
  induction rfuel with
  | zero =>
    intro st st' h
    rw [repairLocNode] at h
    by_cases hd : degree st.E loc = 0
    · rw [if_pos hd] at h; exact absurd h (by simp)
    · rw [if_neg hd] at h; cases h; exact hd
  | succ f ih =>
    intro st st' h
    rw [repairLocNode] at h
    by_cases hd : degree st.E loc = 0
    · rw [if_pos hd] at h
      cases hso : sampleOne md2 ρ st.cs sfuel st.pos with
      | none => rw [hso] at h; exact absurd h (by simp)
      | some v =>
        obtain ⟨p, pos'⟩ := v
        rw [hso] at h
        exact ih h
    · rw [if_neg hd] at h; cases h; exact hd

theorem repairLocNode_frame {sr2 md2 : ℚ} {ρ : ℕ → Point} {L T sfuel loc : ℕ} :
    ∀ {rfuel : ℕ} {st st' : St},
      repairLocNode sr2 md2 ρ L T sfuel loc rfuel st = some st' →
      ∀ j, j ≠ loc → st'.cs.getD j (0, 0) = st.cs.getD j (0, 0) := by
  intro rfuel
  induction rfuel with
  | zero =>
    intro st st' h
    rw [repairLocNode] at h
    by_cases hd : degree st.E loc = 0
    · rw [if_pos hd] at h; exact absurd h (by simp)
    · rw [if_neg hd] at h; cases h; intro j _; rfl
  | succ f ih =>
    intro st st' h
    rw [repairLocNode] at h
    by_cases hd : degree st.E loc = 0
    · rw [if_pos hd] at h
      cases hso : sampleOne md2 ρ st.cs sfuel st.pos with
      | none => rw [hso] at h; exact absurd h (by simp)
      | some v =>
        obtain ⟨p, pos'⟩ := v
        rw [hso] at h
        intro j hj
        rw [ih h j hj]
        show (st.cs.set loc p).getD j (0, 0) = st.cs.getD j (0, 0)
        simp [List.getElem?_set_ne (Ne.symm hj)]
    · rw [if_neg hd] at h; cases h; intro j _; rfl

theorem repairLocNode_len {sr2 md2 : ℚ} {ρ : ℕ → Point} {L T sfuel loc : ℕ} :
    ∀ {rfuel : ℕ} {st st' : St},
      repairLocNode sr2 md2 ρ L T sfuel loc rfuel st = some st' →
      st'.cs.length = st.cs.length := by
  intro rfuel
  induction rfuel with
  | zero =>
    intro st st' h
    rw [repairLocNode] at h
    by_cases hd : degree st.E loc = 0
    · rw [if_pos hd] at h; exact absurd h (by simp)
    · rw [if_neg hd] at h; cases h; rfl
  | succ f ih =>
    intro st st' h
    rw [repairLocNode] at h
    by_cases hd : degree st.E loc = 0
    · rw [if_pos hd] at h
      cases hso : sampleOne md2 ρ st.cs sfuel st.pos with
      | none => rw [hso] at h; exact absurd h (by simp)
      | some v =>
        obtain ⟨p, pos'⟩ := v
        rw [hso] at h
        rw [ih h]
        simp
    · rw [if_neg hd] at h; cases h; rfl

theorem repairLocNode_sep {sr2 md2 : ℚ} {ρ : ℕ → Point} {L T sfuel loc : ℕ} :
    ∀ {rfuel : ℕ} {st st' : St},
      repairLocNode sr2 md2 ρ L T sfuel loc rfuel st = some st' →
      List.Pairwise (Far md2) st.cs → List.Pairwise (Far md2) st'.cs := by
  intro rfuel
  induction rfuel with
  | zero =>
    intro st st' h hsep
    rw [repairLocNode] at h
    by_cases hd : degree st.E loc = 0
    · rw [if_pos hd] at h; exact absurd h (by simp)
    · rw [if_neg hd] at h; cases h; exact hsep
  | succ f ih =>
    intro st st' h hsep
    rw [repairLocNode] at h
    by_cases hd : degree st.E loc = 0
    · rw [if_pos hd] at h
      cases hso : sampleOne md2 ρ st.cs sfuel st.pos with
      | none => rw [hso] at h; exact absurd h (by simp)
      | some v =>
        obtain ⟨p, pos'⟩ := v
        rw [hso] at h
        refine ih h ?_
        exact pairwise_far_set hsep (sampleOne_far hso)
    · rw [if_neg hd] at h; cases h; exact hsep

theorem repairLocNode_cross {sr2 md2 : ℚ} {ρ : ℕ → Point} {L T sfuel loc : ℕ}
    (h1 : loc < L) :
    ∀ {rfuel : ℕ} {st st' : St},
      repairLocNode sr2 md2 ρ L T sfuel loc rfuel st = some st' →
      CrossOnly L T st.E → CrossOnly L T st'.E := by
  intro rfuel
  induction rfuel with
  | zero =>
    intro st st' h hcr
    rw [repairLocNode] at h
    by_cases hd : degree st.E loc = 0
    · rw [if_pos hd] at h; exact absurd h (by simp)
    · rw [if_neg hd] at h; cases h; exact hcr
  | succ f ih =>
    intro st st' h hcr
    rw [repairLocNode] at h
    by_cases hd : degree st.E loc = 0
    · rw [if_pos hd] at h
      cases hso : sampleOne md2 ρ st.cs sfuel st.pos with
      | none => rw [hso] at h; exact absurd h (by simp)
      | some v =>
        obtain ⟨p, pos'⟩ := v
        rw [hso] at h
        exact ih h (addLocEdges_cross hcr h1)
    · rw [if_neg hd] at h; cases h; exact hcr

/-! ### Repair-pass (fold) lemmas -/

theorem repairDems_sub {sr2 md2 : ℚ} {ρ : ℕ → Point} {L sfuel rfuel : ℕ} :
    ∀ {dems : List ℕ} {st st' : St},
      repairDems sr2 md2 ρ L sfuel rfuel dems st = some st' → st.E ⊆ st'.E := by
  intro dems
  induction dems with
  | nil => intro st st' h; rw [repairDems] at h; cases h; exact Finset.Subset.refl _
  | cons d rest ih =>
    intro st st' h
    rw [repairDems] at h
    cases hn : repairDemNode sr2 md2 ρ L sfuel d rfuel st with
    | none => rw [hn] at h; exact absurd h (by simp)
    | some st1 =>
      rw [hn] at h
      exact fun e he => ih h (repairDemNode_sub hn he)

theorem repairDems_frame {sr2 md2 : ℚ} {ρ : ℕ → Point} {L sfuel rfuel : ℕ} :
    ∀ {dems : List ℕ} {st st' : St},
      repairDems sr2 md2 ρ L sfuel rfuel dems st = some st' →
      ∀ j, j ∉ dems → st'.cs.getD j (0, 0) = st.cs.getD j (0, 0) := by
  intro dems
  induction dems with
  | nil => intro st st' h; rw [repairDems] at h; cases h; intro j _; rfl
  | cons d rest ih =>
    intro st st' h
    rw [repairDems] at h
    cases hn : repairDemNode sr2 md2 ρ L sfuel d rfuel st with
    | none => rw [hn] at h; exact absurd h (by simp)
    | some st1 =>
      rw [hn] at h
      intro j hj
      rw [List.mem_cons, not_or] at hj
      rw [ih h j hj.2, repairDemNode_frame hn j hj.1]

theorem repairDems_deg {sr2 md2 : ℚ} {ρ : ℕ → Point} {L sfuel rfuel : ℕ} :
    ∀ {dems : List ℕ} {st st' : St},
      repairDems sr2 md2 ρ L sfuel rfuel dems st = some st' →
      ∀ d ∈ dems, degree st'.E d ≠ 0 := by
  intro dems
  induction dems with
  | nil => intro st st' _ d hd; exact absurd hd (List.not_mem_nil d)
  | cons d rest ih =>
    intro st st' h e he
    rw [repairDems] at h
    cases hn : repairDemNode sr2 md2 ρ L sfuel d rfuel st with
    | none => rw [hn] at h; exact absurd h (by simp)
    | some st1 =>
      rw [hn] at h
      rcases List.mem_cons.mp he with rfl | hrest
      · exact degree_pos_mono (repairDemNode_deg hn) (repairDems_sub h)
      · exact ih h e hrest

theorem repairDems_sep {sr2 md2 : ℚ} {ρ : ℕ → Point} {L sfuel rfuel : ℕ} :
    ∀ {dems : List ℕ} {st st' : St},
      repairDems sr2 md2 ρ L sfuel rfuel dems st = some st' →
      List.Pairwise (Far md2) st.cs → List.Pairwise (Far md2) st'.cs := by
  intro dems
  induction dems with
  | nil => intro st st' h hs; rw [repairDems] at h; cases h; exact hs
  | cons d rest ih =>
    intro st st' h hs
    rw [repairDems] at h
    cases hn : repairDemNode sr2 md2 ρ L sfuel d rfuel st with
    | none => rw [hn] at h; exact absurd h (by simp)
    | some st1 =>
      rw [hn] at h
      exact ih h (repairDemNode_sep hn hs)

theorem repairDems_cross {sr2 md2 : ℚ} {ρ : ℕ → Point} {L T sfuel rfuel : ℕ} :
    ∀ {dems : List ℕ} {st st' : St},
      repairDems sr2 md2 ρ L sfuel rfuel dems st = some st' →
      (∀ d ∈ dems, L ≤ d ∧ d < T) →
      CrossOnly L T st.E → CrossOnly L T st'.E := by
  intro dems
  induction dems with
  | nil => intro st st' h _ hc; rw [repairDems] at h; cases h; exact hc
  | cons d rest ih =>
    intro st st' h hb hc
    rw [repairDems] at h
    cases hn : repairDemNode sr2 md2 ρ L sfuel d rfuel st with
    | none => rw [hn] at h; exact absurd h (by simp)
    | some st1 =>
      rw [hn] at h
      have hd := hb d (List.mem_cons_self d rest)
      exact ih h (fun x hx => hb x (List.mem_cons_of_mem d hx))
        (repairDemNode_cross hd.1 hd.2 hn hc)

theorem repairDems_len {sr2 md2 : ℚ} {ρ : ℕ → Point} {L sfuel rfuel : ℕ} :
    ∀ {dems : List ℕ} {st st' : St},
      repairDems sr2 md2 ρ L sfuel rfuel dems st = some st' →
      st'.cs.length = st.cs.length := by
  intro dems
  induction dems with
  | nil => intro st st' h; rw [repairDems] at h; cases h; rfl
  | cons d rest ih =>
    intro st st' h
    rw [repairDems] at h
    cases hn : repairDemNode sr2 md2 ρ L sfuel d rfuel st with
    | none => rw [hn] at h; exact absurd h (by simp)
    | some st1 =>
      rw [hn] at h
      rw [ih h, repairDemNode_len hn]

theorem repairDems_append {sr2 md2 : ℚ} {ρ : ℕ → Point} {L sfuel rfuel : ℕ} :
    ∀ {l₁ l₂ : List ℕ} {st : St},
      repairDems sr2 md2 ρ L sfuel rfuel (l₁ ++ l₂) st =
        (repairDems sr2 md2 ρ L sfuel rfuel l₁ st).bind
          (repairDems sr2 md2 ρ L sfuel rfuel l₂) := by
  intro l₁
  induction l₁ with
  | nil => intro l₂ st; rw [List.nil_append, repairDems, Option.some_bind]
  | cons d rest ih =>
    intro l₂ st
    rw [List.cons_append, repairDems, repairDems]
    cases hn : repairDemNode sr2 md2 ρ L sfuel d rfuel st with
    | none => simp
    | some st1 => simpa using ih

theorem repairLocs_sub {sr2 md2 : ℚ} {ρ : ℕ → Point} {L T sfuel rfuel : ℕ} :
    ∀ {locs : List ℕ} {st st' : St},
      repairLocs sr2 md2 ρ L T sfuel rfuel locs st = some st' → st.E ⊆ st'.E := by
  intro locs
  induction locs with
  | nil => intro st st' h; rw [repairLocs] at h; cases h; exact Finset.Subset.refl _
  | cons c rest ih =>
    intro st st' h
    rw [repairLocs] at h
    cases hn : repairLocNode sr2 md2 ρ L T sfuel c rfuel st with
    | none => rw [hn] at h; exact absurd h (by simp)
    | some st1 =>
      rw [hn] at h
      exact fun e he => ih h (repairLocNode_sub hn he)

theorem repairLocs_frame {sr2 md2 : ℚ} {ρ : ℕ → Point} {L T sfuel rfuel : ℕ} :
    ∀ {locs : List ℕ} {st st' : St},
      repairLocs sr2 md2 ρ L T sfuel rfuel locs st = some st' →
      ∀ j, j ∉ locs → st'.cs.getD j (0, 0) = st.cs.getD j (0, 0) := by
  intro locs
  induction locs with
  | nil => intro st st' h; rw [repairLocs] at h; cases h; intro j _; rfl
  | cons c rest ih =>
    intro st st' h
    rw [repairLocs] at h
    cases hn : repairLocNode sr2 md2 ρ L T sfuel c rfuel st with
    | none => rw [hn] at h; exact absurd h (by simp)
    | some st1 =>
      rw [hn] at h
      intro j hj
      rw [List.mem_cons, not_or] at hj
      rw [ih h j hj.2, repairLocNode_frame hn j hj.1]

theorem repairLocs_deg {sr2 md2 : ℚ} {ρ : ℕ → Point} {L T sfuel rfuel : ℕ} :
    ∀ {locs : List ℕ} {st st' : St},
      repairLocs sr2 md2 ρ L T sfuel rfuel locs st = some st' →
      ∀ c ∈ locs, degree st'.E c ≠ 0 := by
  intro locs
  induction locs with
  | nil => intro st st' _ c hc; exact absurd hc (List.not_mem_nil c)
  | cons c rest ih =>
    intro st st' h e he
    rw [repairLocs] at h
    cases hn : repairLocNode sr2 md2 ρ L T sfuel c rfuel st with
    | none => rw [hn] at h; exact absurd h (by simp)
    | some st1 =>
      rw [hn] at h
      rcases List.mem_cons.mp he with rfl | hrest
      · exact degree_pos_mono (repairLocNode_deg hn) (repairLocs_sub h)
      · exact ih h e hrest

theorem repairLocs_sep {sr2 md2 : ℚ} {ρ : ℕ → Point} {L T sfuel rfuel : ℕ} :
    ∀ {locs : List ℕ} {st st' : St},
      repairLocs sr2 md2 ρ L T sfuel rfuel locs st = some st' →
      List.Pairwise (Far md2) st.cs → List.Pairwise (Far md2) st'.cs := by
  intro locs
  induction locs with
  | nil => intro st st' h hs; rw [repairLocs] at h; cases h; exact hs
  | cons c rest ih =>
    intro st st' h hs
    rw [repairLocs] at h
    cases hn : repairLocNode sr2 md2 ρ L T sfuel c rfuel st with
    | none => rw [hn] at h; exact absurd h (by simp)
    | some st1 =>
      rw [hn] at h
      exact ih h (repairLocNode_sep hn hs)

theorem repairLocs_cross {sr2 md2 : ℚ} {ρ : ℕ → Point} {L T sfuel rfuel : ℕ} :
    ∀ {locs : List ℕ} {st st' : St},
      repairLocs sr2 md2 ρ L T sfuel rfuel locs st = some st' →
      (∀ c ∈ locs, c < L) →
      CrossOnly L T st.E → CrossOnly L T st'.E := by
  intro locs
  induction locs with
  | nil => intro st st' h _ hc; rw [repairLocs] at h; cases h; exact hc
  | cons c rest ih =>
    intro st st' h hb hc
    rw [repairLocs] at h
    cases hn : repairLocNode sr2 md2 ρ L T sfuel c rfuel st with
    | none => rw [hn] at h; exact absurd h (by simp)
    | some st1 =>
      rw [hn] at h
      exact ih h (fun x hx => hb x (List.mem_cons_of_mem c hx))
        (repairLocNode_cross (hb c (List.mem_cons_self c rest)) hn hc)

theorem repairLocs_len {sr2 md2 : ℚ} {ρ : ℕ → Point} {L T sfuel rfuel : ℕ} :
    ∀ {locs : List ℕ} {st st' : St},
      repairLocs sr2 md2 ρ L T sfuel rfuel locs st = some st' →
      st'.cs.length = st.cs.length := by
  intro locs
  induction locs with
  | nil => intro st st' h; rw [repairLocs] at h; cases h; rfl
  | cons c rest ih =>
    intro st st' h
    rw [repairLocs] at h
    cases hn : repairLocNode sr2 md2 ρ L T sfuel c rfuel st with
    | none => rw [hn] at h; exact absurd h (by simp)
    | some st1 =>
      rw [hn] at h
      rw [ih h, repairLocNode_len hn]

/-! ### Graph-construction lemmas -/

theorem geomEdges_bounds {sr2 : ℚ} {cs : List Point} {e : ℕ × ℕ}
    (h : e ∈ geomEdges sr2 cs) : e.1 < e.2 ∧ e.2 < cs.length := by
  unfold geomEdges at h
  obtain ⟨hmem, hcond⟩ := Finset.mem_filter.mp h
  obtain ⟨-, h2⟩ := Finset.mem_product.mp hmem
  exact ⟨hcond.1, Finset.mem_range.mp h2⟩

theorem removeSameClass_cross {L P : ℕ} {E : Finset (ℕ × ℕ)}
    (hb : ∀ e ∈ E, e.1 < e.2 ∧ e.2 < L + P) :
    CrossOnly L (L + P) (removeSameClass L (L + P) E) := by
  intro e he
  obtain ⟨heE, hcond⟩ := Finset.mem_filter.mp he
  have := hb e heE
  omega

theorem initialState_inv {L P : ℕ} {sr2 md2 : ℚ} {ρ : ℕ → Point} {sfuel : ℕ}
    {st0 : St} (h : initialState L P sr2 md2 ρ sfuel = some st0) :
    st0.cs.length = L + P ∧ List.Pairwise (Far md2) st0.cs ∧
    CrossOnly L (L + P) st0.E := by
  unfold initialState at h
  cases hs : sampleN md2 ρ sfuel (L + P) [] 0 with
  | none => rw [hs] at h; exact absurd h (by simp)
  | some v =>
    obtain ⟨cs, pos⟩ := v
    rw [hs] at h
    cases h
    have hlen : cs.length = L + P := by
      have := sampleN_length hs; simpa using this
    refine ⟨hlen, sampleN_sep hs (List.Pairwise.nil), ?_⟩
    exact removeSameClass_cross fun e he => hlen ▸ geomEdges_bounds he

/-! ### Neighbor-list lemmas -/

theorem locNeighbors_mem {L : ℕ} {E : Finset (ℕ × ℕ)} {dem loc : ℕ} :
    loc ∈ locNeighbors L E dem ↔ loc < L ∧ (loc, dem) ∈ E := by
  unfold locNeighbors
  simp [List.mem_filter, List.mem_range]

theorem locNeighbors_ne_nil {L T : ℕ} {E : Finset (ℕ × ℕ)} {dem : ℕ}
    (hcr : CrossOnly L T E) (hdem : L ≤ dem) (hdeg : degree E dem ≠ 0) :
    locNeighbors L E dem ≠ [] := by
  have hne : (E.filter fun e => e.1 = dem ∨ e.2 = dem).Nonempty := by
    rw [← Finset.card_pos]
    unfold degree at hdeg
    omega
  obtain ⟨e, he⟩ := hne
  obtain ⟨heE, hor⟩ := Finset.mem_filter.mp he
  have hcl := hcr e heE
  have he2 : e.2 = dem := by
    rcases hor with h1 | h2
    · omega
    · exact h2
  have hmem : e.1 ∈ locNeighbors L E dem := by
    rw [locNeighbors_mem]
    refine ⟨hcl.1, ?_⟩
    have : (e.1, dem) = e := by
      rw [← he2]
    rw [this]
    exact heE
  exact List.ne_nil_of_mem hmem

/-! ### Pipeline inversion -/

theorem generate_ok_inv {services L P : ℕ} {sr2 : ℚ} {ρ : ℕ → Point} {σ : ℕ → ℕ}
    {γo γe : ℕ → ℚ} {sfuel rfuel : ℕ} {out : Output}
    (h : generate services L P sr2 ρ σ γo γe sfuel rfuel = .ok out) :
    services ≤ P ∧
    ∃ st0 st1 st2 : St,
      initialState L P sr2 (sr2 / 100) ρ sfuel = some st0 ∧
      repairDems sr2 (sr2 / 100) ρ L sfuel rfuel (demIdxs L P) st0 = some st1 ∧
      repairLocs sr2 (sr2 / 100) ρ L (L + P) sfuel rfuel (locIdxs L) st1 = some st2 ∧
      out.coords = st2.cs ∧ out.graph = st2.E ∧
      out.records = assignLoop services L σ st2.E (demIdxs L P) 0 false 0 ∧
      out.sortedRecords = out.records.insertionSort tripleLe ∧
      out.openingCosts = openingCosts γo L ∧
      out.equipCosts = equipCosts γe services ∧
      out.table = finalTable out.sortedRecords out.openingCosts out.equipCosts := by
  unfold generate at h
  by_cases hsp : services > P
  · rw [if_pos hsp] at h; exact absurd h (by simp)
  · rw [if_neg hsp] at h
    simp only at h
    refine ⟨by omega, ?_⟩
    cases h0 : initialState L P sr2 (sr2 / 100) ρ sfuel with
    | none => rw [h0] at h; exact absurd h (by simp)
    | some st0 =>
      rw [h0] at h
      dsimp only at h
      cases h1 : repairDems sr2 (sr2 / 100) ρ L sfuel rfuel (demIdxs L P) st0 with
      | none => rw [h1] at h; exact absurd h (by simp)
      | some st1 =>
        rw [h1] at h
        dsimp only at h
        cases h2 : repairLocs sr2 (sr2 / 100) ρ L (L + P) sfuel rfuel (locIdxs L) st1 with
        | none => rw [h2] at h; exact absurd h (by simp)
        | some st2 =>
          rw [h2] at h
          dsimp only at h
          cases h
          exact ⟨st0, st1, st2, rfl, h1, h2, rfl, rfl, rfl, rfl, rfl, rfl, rfl⟩

theorem finalState_deg {sr2 md2 : ℚ} {ρ : ℕ → Point} {L P sfuel rfuel : ℕ}
    {st0 st1 st2 : St}
    (h1 : repairDems sr2 md2 ρ L sfuel rfuel (demIdxs L P) st0 = some st1)
    (h2 : repairLocs sr2 md2 ρ L (L + P) sfuel rfuel (locIdxs L) st1 = some st2) :
    ∀ n, n < L + P → degree st2.E n ≠ 0 := by
  intro n hn
  by_cases hnl : n < L
  · exact repairLocs_deg h2 n (by simp [locIdxs, List.mem_range, hnl])
  · have hmem : n ∈ demIdxs L P := by
      unfold demIdxs
      rw [List.mem_range'_1]
      omega
    exact degree_pos_mono (repairDems_deg h1 n hmem) (repairLocs_sub h2)

/-! ### Service-assignment lemmas -/

theorem loopIds_true_eq (services : ℕ) (σ : ℕ → ℕ) :
    ∀ (dems : List ℕ) (s r : ℕ),
      loopIds services σ dems s true r =
        (List.range dems.length).map fun k => if k = 0 then s else σ (r + k - 1) := by
  intro dems
  induction dems with
  | nil => intro s r; rfl
  | cons d rest ih =>
    intro s r
    rw [loopIds, if_pos rfl, ih]
    rw [List.length_cons, List.range_succ_eq_map, List.map_cons, List.map_map]
    rw [if_pos rfl]
    congr 1
    apply List.map_congr_left
    intro k _
    simp only [Function.comp_apply, Nat.succ_ne_zero, if_false]
    cases k with
    | zero => simp
    | succ j =>
      have h1 : r + 1 + (j + 1) - 1 = r + (j + 1 + 1) - 1 := by omega
      simp only [Nat.succ_ne_zero, if_false]
      rw [h1]

theorem loopIds_false_eq {services : ℕ} (hs : 1 ≤ services) (σ : ℕ → ℕ) :
    ∀ (dems : List ℕ) (s : ℕ), s < services →
      loopIds services σ dems s false 0 =
        (List.range dems.length).map fun k =>
          if s + k < services then s + k
          else if s + k = services then services - 1
          else σ (s + k - services - 1) := by
  intro dems
  induction dems with
  | nil => intro s _; rfl
  | cons d rest ih =>
    intro s hslt
    rw [loopIds, if_neg Bool.false_ne_true]
    rw [List.length_cons, List.range_succ_eq_map, List.map_cons, List.map_map]
    rw [if_pos (by omega : s + 0 < services)]
    by_cases hz : (s : ℤ) = (services : ℤ) - 1
    · have hse : s = services - 1 := by omega
      rw [if_pos hz, loopIds_true_eq]
      congr 1
      apply List.map_congr_left
      intro k _
      simp only [Function.comp_apply]
      cases k with
      | zero =>
        simp only [Function.comp_apply]
        split_ifs <;> omega
      | succ j =>
        have h1 : ¬(s + (j + 1 + 1) < services) := by omega
        have h2 : ¬(s + (j + 1 + 1) = services) := by omega
        have h3 : s + (j + 1 + 1) - services - 1 = j := by omega
        simp only [Nat.succ_ne_zero, if_false, h3, if_neg h1, if_neg h2]
        congr 1
        omega
    · have hs1 : s + 1 < services := by omega
      rw [if_neg hz, ih (s + 1) hs1]
      congr 1
      apply List.map_congr_left
      intro k _
      simp only [Function.comp_apply]
      have h1 : s + 1 + k = s + (k + 1) := by omega
      rw [h1]

theorem loopIds_start {services : ℕ} (hs : 1 ≤ services) (σ : ℕ → ℕ) (dems : List ℕ) :
    loopIds services σ dems 0 false 0 =
      (List.range dems.length).map (repoIdSeq services σ) := by
  rw [loopIds_false_eq hs σ dems 0 (by omega)]
  apply List.map_congr_left
  intro k _
  unfold repoIdSeq
  simp

theorem assignLoop_eq_joinRecs (services L : ℕ) (σ : ℕ → ℕ) (E : Finset (ℕ × ℕ)) :
    ∀ (dems : List ℕ) (svc : ℕ) (flag : Bool) (rpos : ℕ),
      assignLoop services L σ E dems svc flag rpos =
        joinRecs L E dems (loopIds services σ dems svc flag rpos) := by
  intro dems
  induction dems with
  | nil => intro svc flag rpos; rfl
  | cons d rest ih =>
    intro svc flag rpos
    rw [assignLoop, loopIds, joinRecs]
    cases flag with
    | true => rw [if_pos rfl, if_pos rfl, ih]
    | false =>
      rw [if_neg Bool.false_ne_true, if_neg Bool.false_ne_true]
      by_cases hz : (svc : ℤ) = (services : ℤ) - 1
      · rw [if_pos hz, if_pos hz, ih]
      · rw [if_neg hz, if_neg hz, ih]

theorem assignLoop_ids_lt {services L : ℕ} {σ : ℕ → ℕ} {E : Finset (ℕ × ℕ)}
    (hσ : ∀ i, σ i < services) :
    ∀ (dems : List ℕ) (svc : ℕ) (flag : Bool) (rpos : ℕ), svc < services →
      ∀ r ∈ assignLoop services L σ E dems svc flag rpos, r.1 < services := by
  intro dems
  induction dems with
  | nil => intro svc flag rpos _ r hr; rw [assignLoop] at hr; exact absurd hr (List.not_mem_nil r)
  | cons d rest ih =>
    intro svc flag rpos hsvc r hr
    rw [assignLoop] at hr
    rcases List.mem_append.mp hr with hl | hrt
    · obtain ⟨loc, _, rfl⟩ := List.mem_map.mp hl
      exact hsvc
    · cases flag with
      | true =>
        rw [if_pos rfl] at hrt
        exact ih (σ rpos) true (rpos + 1) (hσ rpos) r hrt
      | false =>
        rw [if_neg Bool.false_ne_true] at hrt
        by_cases hz : (svc : ℤ) = (services : ℤ) - 1
        · rw [if_pos hz] at hrt
          exact ih svc true rpos hsvc r hrt
        · rw [if_neg hz] at hrt
          exact ih (svc + 1) false rpos (by omega) r hrt

theorem assignLoop_covers {services L : ℕ} {σ : ℕ → ℕ} {E : Finset (ℕ × ℕ)} :
    ∀ (dems : List ℕ) (svc rpos : ℕ),
      (∀ d ∈ dems, locNeighbors L E d ≠ []) →
      services ≤ svc + dems.length →
      ∀ t, svc ≤ t → t < services →
        t ∈ (assignLoop services L σ E dems svc false rpos).map Prod.fst := by
  intro dems
  induction dems with
  | nil => intro svc rpos _ hlen t ht1 ht2; simp at hlen; omega
  | cons d rest ih =>
    intro svc rpos hne hlen t ht1 ht2
    rw [assignLoop, List.map_append, List.mem_append]
    rcases Nat.eq_or_lt_of_le ht1 with rfl | hlt
    · left
      have hd := hne d (List.mem_cons_self d rest)
      obtain ⟨loc, hloc⟩ := List.exists_mem_of_ne_nil _ hd
      rw [List.map_map]
      exact List.mem_map.mpr ⟨loc, hloc, rfl⟩
    · right
      rw [if_neg Bool.false_ne_true]
      have hz : ¬((svc : ℤ) = (services : ℤ) - 1) := by omega
      rw [if_neg hz]
      refine ih (svc + 1) rpos (fun x hx => hne x (List.mem_cons_of_mem d hx)) ?_ t (by omega) ht2
      rw [List.length_cons] at hlen
      omega

theorem assignLoop_length {services L : ℕ} {σ : ℕ → ℕ} {E : Finset (ℕ × ℕ)} :
    ∀ (dems : List ℕ) (svc : ℕ) (flag : Bool) (rpos : ℕ),
      (assignLoop services L σ E dems svc flag rpos).length =
        (dems.map fun d => (locNeighbors L E d).length).sum := by
  intro dems
  induction dems with
  | nil => intro svc flag rpos; rfl
  | cons d rest ih =>
    intro svc flag rpos
    rw [assignLoop, List.length_append, List.length_map, List.map_cons, List.sum_cons]
    congr 1
    cases flag with
    | true => rw [if_pos rfl, ih]
    | false =>
      rw [if_neg Bool.false_ne_true]
      by_cases hz : (svc : ℤ) = (services : ℤ) - 1
      · rw [if_pos hz, ih]
      · rw [if_neg hz, ih]

/-! ### Edge-counting lemmas -/

theorem sum_map_toFinset {l : List ℕ} (hn : l.Nodup) (g : ℕ → ℕ) :
    ∑ d in l.toFinset, g d = (l.map g).sum := by
  induction l with
  | nil => simp
  | cons a t ih =>
    rw [List.toFinset_cons, List.map_cons, List.sum_cons]
    rw [List.nodup_cons] at hn
    rw [Finset.sum_insert (by simp [hn.1]), ih hn.2]

theorem locNeighbors_toFinset {L : ℕ} {E : Finset (ℕ × ℕ)} {dem : ℕ} :
    (locNeighbors L E dem).toFinset =
      (Finset.range L).filter fun loc => (loc, dem) ∈ E := by
  apply Finset.ext
  intro loc
  rw [List.mem_toFinset, locNeighbors_mem, Finset.mem_filter, Finset.mem_range]

theorem locNeighbors_nodup {L : ℕ} {E : Finset (ℕ × ℕ)} {dem : ℕ} :
    (locNeighbors L E dem).Nodup :=
  (List.nodup_range L).filter _

theorem fiber_card_eq {L T : ℕ} {E : Finset (ℕ × ℕ)} (hcr : CrossOnly L T E)
    (dem : ℕ) :
    (E.filter fun e => e.2 = dem).card = (locNeighbors L E dem).length := by
  rw [← List.toFinset_card_of_nodup locNeighbors_nodup, locNeighbors_toFinset]
  apply Finset.card_bij fun e _ => e.1
  · intro e he
    obtain ⟨heE, he2⟩ := Finset.mem_filter.mp he
    rw [Finset.mem_filter, Finset.mem_range]
    refine ⟨(hcr e heE).1, ?_⟩
    have : (e.1, dem) = e := by rw [← he2]
    rw [this]
    exact heE
  · intro e he e' he' hfst
    obtain ⟨-, he2⟩ := Finset.mem_filter.mp he
    obtain ⟨-, he2'⟩ := Finset.mem_filter.mp he'
    exact Prod.ext hfst (he2.trans he2'.symm)
  · intro loc hloc
    obtain ⟨-, hmem⟩ := Finset.mem_filter.mp hloc
    exact ⟨(loc, dem), Finset.mem_filter.mpr ⟨hmem, rfl⟩, rfl⟩

theorem card_eq_sum_neighbors {L P : ℕ} {E : Finset (ℕ × ℕ)}
    (hcr : CrossOnly L (L + P) E) :
    E.card = ((demIdxs L P).map fun d => (locNeighbors L E d).length).sum := by
  have hmem : ∀ e ∈ E, e.2 ∈ (demIdxs L P).toFinset := by
    intro e he
    have := hcr e he
    rw [List.mem_toFinset]
    unfold demIdxs
    rw [List.mem_range'_1]
    omega
  have hnd : (demIdxs L P).Nodup := by
    unfold demIdxs
    exact List.nodup_range' L P
  rw [Finset.card_eq_sum_card_fiberwise hmem]
  rw [← sum_map_toFinset hnd fun d => (locNeighbors L E d).length]
  apply Finset.sum_congr rfl
  intro d _
  exact fiber_card_eq hcr d

theorem length_le_sum {l : List ℕ} (h : ∀ x ∈ l, 1 ≤ x) : l.length ≤ l.sum := by
  induction l with
  | nil => simp
  | cons a t ih =>
    rw [List.length_cons, List.sum_cons]
    have h1 := h a (List.mem_cons_self a t)
    have h2 := ih fun x hx => h x (List.mem_cons_of_mem a hx)
    omega

theorem card_ge_points {L P : ℕ} {E : Finset (ℕ × ℕ)}
    (hcr : CrossOnly L (L + P) E)
    (hdeg : ∀ d ∈ demIdxs L P, degree E d ≠ 0) : P ≤ E.card := by
  rw [card_eq_sum_neighbors hcr]
  have hlen : (demIdxs L P).length = P := by
    unfold demIdxs
    simp
  have h2 : ((demIdxs L P).map fun d => (locNeighbors L E d).length).length = P := by
    rw [List.length_map, hlen]
  have h3 : ((demIdxs L P).map fun d => (locNeighbors L E d).length).length ≤
      ((demIdxs L P).map fun d => (locNeighbors L E d).length).sum := by
    apply length_le_sum
    intro x hx
    obtain ⟨d, hd, rfl⟩ := List.mem_map.mp hx
    have hLd : L ≤ d := by
      unfold demIdxs at hd
      rw [List.mem_range'_1] at hd
      omega
    have hnn := locNeighbors_ne_nil hcr hLd (hdeg d hd)
    have := List.length_pos.mpr hnn
    omega
  omega

theorem card_ge_locs {L T : ℕ} {E : Finset (ℕ × ℕ)} (hcr : CrossOnly L T E)
    (hdeg : ∀ n, n < L → degree E n ≠ 0) : L ≤ E.card := by
  have hmem : ∀ e ∈ E, e.1 ∈ Finset.range L := fun e he =>
    Finset.mem_range.mpr (hcr e he).1
  rw [Finset.card_eq_sum_card_fiberwise hmem]
  have h1 : ∀ n ∈ Finset.range L, 1 ≤ (E.filter fun e => e.1 = n).card := by
    intro n hn
    rw [Finset.mem_range] at hn
    have hd := hdeg n hn
    have hne : (E.filter fun e => e.1 = n ∨ e.2 = n).Nonempty := by
      rw [← Finset.card_pos]
      unfold degree at hd
      omega
    obtain ⟨e, he⟩ := hne
    obtain ⟨heE, hor⟩ := Finset.mem_filter.mp he
    have hcl := hcr e heE
    have he1 : e.1 = n := by
      rcases hor with h | h
      · exact h
      · omega
    have : 0 < (E.filter fun e => e.1 = n).card :=
      Finset.card_pos.mpr ⟨e, Finset.mem_filter.mpr ⟨heE, he1⟩⟩
    omega
  calc L = ∑ _n in Finset.range L, 1 := by simp
    _ ≤ ∑ n in Finset.range L, (E.filter fun e => e.1 = n).card :=
        Finset.sum_le_sum h1

/-! ### Pipeline-level helper lemmas -/

theorem pipeline_cross {L P sfuel rfuel : ℕ} {sr2 md2 : ℚ} {ρ : ℕ → Point}
    {st0 st1 st2 : St}
    (hi : initialState L P sr2 md2 ρ sfuel = some st0)
    (h1 : repairDems sr2 md2 ρ L sfuel rfuel (demIdxs L P) st0 = some st1)
    (h2 : repairLocs sr2 md2 ρ L (L + P) sfuel rfuel (locIdxs L) st1 = some st2) :
    CrossOnly L (L + P) st2.E := by
  have h0 := initialState_inv hi
  refine repairLocs_cross h2 ?_ (repairDems_cross h1 ?_ h0.2.2)
  · intro c hc
    unfold locIdxs at hc
    exact List.mem_range.mp hc
  · intro d hd
    unfold demIdxs at hd
    rw [List.mem_range'_1] at hd
    omega

theorem pipeline_neighbors_ne_nil {L P sfuel rfuel : ℕ} {sr2 md2 : ℚ}
    {ρ : ℕ → Point} {st0 st1 st2 : St}
    (hi : initialState L P sr2 md2 ρ sfuel = some st0)
    (h1 : repairDems sr2 md2 ρ L sfuel rfuel (demIdxs L P) st0 = some st1)
    (h2 : repairLocs sr2 md2 ρ L (L + P) sfuel rfuel (locIdxs L) st1 = some st2) :
    ∀ d ∈ demIdxs L P, locNeighbors L st2.E d ≠ [] := by
  intro d hd
  have hcross := pipeline_cross hi h1 h2
  have hLd : L ≤ d ∧ d < L + P := by
    unfold demIdxs at hd
    rw [List.mem_range'_1] at hd
    omega
  exact locNeighbors_ne_nil hcross hLd.1 (finalState_deg h1 h2 d hLd.2)

/-! ### Divergence helper lemmas (for the missing iteration cap) -/

theorem tooClose_nonpos {md2 : ℚ} (h : md2 ≤ 0) (cs : List Point) (p : Point) :
    tooClose md2 cs p = false := by
  unfold tooClose
  rw [List.any_eq_false]
  intro c _
  simp only [decide_eq_true_eq, not_lt]
  have h0 : 0 ≤ dist2 c p := by
    unfold dist2
    positivity
  linarith

theorem sampleOne_succ_accept {md2 : ℚ} {ρ : ℕ → Point} {cs : List Point}
    {s pos : ℕ} (h : tooClose md2 cs (ρ pos) = false) :
    sampleOne md2 ρ cs (s + 1) pos = some (ρ pos, pos + 1) := by
  rw [sampleOne, h]
  rfl

theorem sampleN_zero_md {ρ : ℕ → Point} {s : ℕ} :
    ∀ (n : ℕ) (cs : List Point) (pos : ℕ),
      sampleN 0 ρ (s + 1) n cs pos =
        some (cs ++ (List.range n).map (fun k => ρ (pos + k)), pos + n) := by
  intro n
  induction n with
  | zero => intro cs pos; simp [sampleN]
  | succ m ih =>
    intro cs pos
    rw [sampleN, sampleOne_succ_accept (tooClose_nonpos le_rfl cs _)]
    dsimp only
    rw [ih (cs ++ [ρ pos]) (pos + 1), List.range_succ_eq_map, List.map_cons,
      List.map_map]
    have hmap : List.map ((fun k => ρ (pos + k)) ∘ Nat.succ) (List.range m) =
        List.map (fun k => ρ (pos + 1 + k)) (List.range m) := by
      apply List.map_congr_left
      intro k _
      simp only [Function.comp_apply]
      congr 1
      omega
    rw [hmap]
    have hpm : pos + 1 + m = pos + (m + 1) := by omega
    simp only [List.append_assoc, List.singleton_append, Nat.add_zero, hpm]

theorem rhoDiv_pos {n : ℕ} (h : 1 ≤ n) : rhoDiv n = ((1:ℚ)/2, (1:ℚ)/2) := by
  unfold rhoDiv
  rw [if_neg (by omega)]

theorem repairDemNode_div_none (sfuel : ℕ) :
    ∀ (rfuel pos : ℕ), 1 ≤ pos →
      repairDemNode 0 0 rhoDiv 1 sfuel 1 rfuel
        ⟨[(0, 0), ((1:ℚ)/2, (1:ℚ)/2)], ∅, pos⟩ = none := by
  have hdeg0 : degree (∅ : Finset (ℕ × ℕ)) 1 = 0 := by
    with_unfolding_all decide
  intro rfuel
  induction rfuel with
  | zero =>
    intro pos _
    rw [repairDemNode, if_pos hdeg0]
  | succ f ih =>
    intro pos hpos
    rw [repairDemNode, if_pos hdeg0]
    cases sfuel with
    | zero => rfl
    | succ s =>
      have hso : sampleOne 0 rhoDiv [(0, 0), ((1:ℚ)/2, (1:ℚ)/2)] (s + 1) pos =
          some (((1:ℚ)/2, (1:ℚ)/2), pos + 1) := by
        rw [sampleOne_succ_accept (tooClose_nonpos le_rfl _ _), rhoDiv_pos hpos]
      rw [hso]
      dsimp only
      have hset : ([((0:ℚ), (0:ℚ)), ((1:ℚ)/2, (1:ℚ)/2)]).set 1 ((1:ℚ)/2, (1:ℚ)/2) =
          [((0:ℚ), (0:ℚ)), ((1:ℚ)/2, (1:ℚ)/2)] := by
        with_unfolding_all decide
      rw [hset]
      have hadd : addDemEdges 0 1 [((0:ℚ), (0:ℚ)), ((1:ℚ)/2, (1:ℚ)/2)] 1 ∅ = ∅ := by
        with_unfolding_all decide
      rw [hadd]
      exact ih (pos + 1) (by omega)

theorem initialState_div (s : ℕ) :
    initialState 1 1 0 0 rhoDiv (s + 1) =
      some ⟨[(0, 0), ((1:ℚ)/2, (1:ℚ)/2)], ∅, 2⟩ := by
  unfold initialState
  rw [sampleN_zero_md (1 + 1) [] 0]
  dsimp only
  have hl : ([] : List Point) ++
      (List.range (1 + 1)).map (fun k => rhoDiv (0 + k)) =
      [(0, 0), ((1:ℚ)/2, (1:ℚ)/2)] := by
    with_unfolding_all decide
  rw [hl]
  have hg : removeSameClass 1 (1 + 1)
      (geomEdges 0 [(0, 0), ((1:ℚ)/2, (1:ℚ)/2)]) = ∅ := by
    with_unfolding_all decide
  rw [hg]

theorem generate_div (sfuel rfuel : ℕ) :
    generate 1 1 1 0 rhoDiv (fun _ => 0) (fun _ => 0) (fun _ => 0) sfuel rfuel =
      GenResult.diverged := by
  unfold generate
  rw [if_neg (by omega)]
  have hq : ((0:ℚ) / 100) = 0 := by norm_num
  dsimp only
  rw [hq]
  cases sfuel with
  | zero =>
    have h0 : initialState 1 1 0 0 rhoDiv 0 = none := by
      with_unfolding_all decide
    rw [h0]
  | succ s =>
    rw [initialState_div s]
    dsimp only
    have hdems : demIdxs 1 1 = [1] := by with_unfolding_all decide
    rw [hdems, repairDems]
    rw [repairDemNode_div_none (s + 1) rfuel 2 (by omega)]

/-! ### Claim theorems -/

/-- C1: for every completed generation run with at least one service
(`services ≥ 1` is the input contract) and in-range `randint` draws, the set
of service ids appearing across all emitted records is exactly
`{0, …, services-1}`.  (`services ≤ points` is enforced by the run itself.) -/
theorem serviceIds_exact {services L P : ℕ} {sr2 : ℚ} {ρ : ℕ → Point}
    {σ : ℕ → ℕ} {γo γe : ℕ → ℚ} {sfuel rfuel : ℕ} {out : Output}
    (hs : 1 ≤ services) (hσ : ∀ i, σ i < services)
    (h : generate services L P sr2 ρ σ γo γe sfuel rfuel = .ok out) :
    (out.records.map Prod.fst).toFinset = Finset.range services := by
  obtain ⟨hsp, st0, st1, st2, hi, h1, h2, -, -, hrecs, -⟩ := generate_ok_inv h
  apply Finset.Subset.antisymm
  · intro t ht
    rw [List.mem_toFinset] at ht
    obtain ⟨r, hr, rfl⟩ := List.mem_map.mp ht
    rw [Finset.mem_range]
    rw [hrecs] at hr
    exact assignLoop_ids_lt hσ (demIdxs L P) 0 false 0 (by omega) r hr
  · intro t ht
    rw [Finset.mem_range] at ht
    rw [List.mem_toFinset, hrecs]
    have hlen : (demIdxs L P).length = P := by
      unfold demIdxs
      simp
    exact assignLoop_covers (demIdxs L P) 0 0
      (pipeline_neighbors_ne_nil hi h1 h2) (by omega) t (Nat.zero_le t) ht

/-- C2: after the two-pass connectivity repair, every node of the graph —
every location and every demand point — has degree at least 1. -/
theorem repair_degrees_pos {services L P : ℕ} {sr2 : ℚ} {ρ : ℕ → Point}
    {σ : ℕ → ℕ} {γo γe : ℕ → ℚ} {sfuel rfuel : ℕ} {out : Output}
    (h : generate services L P sr2 ρ σ γo γe sfuel rfuel = .ok out) :
    ∀ n, n < L + P → 1 ≤ degree out.graph n := by
  obtain ⟨-, st0, st1, st2, -, h1, h2, -, hgraph, -⟩ := generate_ok_inv h
  intro n hn
  have := finalState_deg h1 h2 n hn
  rw [hgraph]
  omega

/-- C3: the final coordinate set of a completed run is pairwise separated: any
two distinct sampled points are at squared distance at least
`minimum_distance² = sr2 / 100` (equivalently, Euclidean distance at least
`minimum_distance`).  The invariant is established by the initial sampling and
preserved by every relocation (`sampleN_sep`, `repairDemNode_sep`,
`repairLocNode_sep`). -/
theorem coords_pairwise_far {services L P : ℕ} {sr2 : ℚ} {ρ : ℕ → Point}
    {σ : ℕ → ℕ} {γo γe : ℕ → ℚ} {sfuel rfuel : ℕ} {out : Output}
    (h : generate services L P sr2 ρ σ γo γe sfuel rfuel = .ok out) :
    List.Pairwise (Far (sr2 / 100)) out.coords := by
  obtain ⟨-, st0, st1, st2, hi, h1, h2, hcoords, -⟩ := generate_ok_inv h
  have h0 := initialState_inv hi
  rw [hcoords]
  exact repairLocs_sep h2 (repairDems_sep h1 h0.2.1)

/-- C4 (counterexample): same-class edges are added by the geometric-graph
construction and only removed afterwards by the filter: with two locations at
distance within the service range, the edge `(0,1)` joining them is present in
the built graph and disappears only through `removeSameClass`. -/
theorem bipartite_not_structural_cex :
    (0, 1) ∈ geomEdges 1 [((0:ℚ), (0:ℚ)), ((1:ℚ)/2, (1:ℚ)/2), ((1:ℚ)/4, (1:ℚ)/4)] ∧
    (0, 1) ∉ removeSameClass 2 3
      (geomEdges 1 [((0:ℚ), (0:ℚ)), ((1:ℚ)/2, (1:ℚ)/2), ((1:ℚ)/4, (1:ℚ)/4)]) := by
  with_unfolding_all decide

/-- C4 (amended): the graph consumed by the service assigner is bipartite —
every edge of a completed run's final graph joins a location (index `< L`) to
a demand point (index in `[L, L+P)`) — but this holds because same-class edges
are removed after the geometric graph is built, not because they are never
added. -/
theorem bipartite_after_filter {services L P : ℕ} {sr2 : ℚ} {ρ : ℕ → Point}
    {σ : ℕ → ℕ} {γo γe : ℕ → ℚ} {sfuel rfuel : ℕ} {out : Output}
    (h : generate services L P sr2 ρ σ γo γe sfuel rfuel = .ok out) :
    CrossOnly L (L + P) out.graph := by
  obtain ⟨-, st0, st1, st2, hi, h1, h2, -, hgraph, -⟩ := generate_ok_inv h
  rw [hgraph]
  exact pipeline_cross hi h1 h2

/-- C5 (counterexample): the service-id policy of the claim fails at the
demand point right after the full range has cycled through: with `services=2`
and three demand points each connected to location 0, the code emits ids
`0, 1, 1` while the spec's policy (`specIdSeq`, random from the third demand
point on, with the random stream constantly 0) would emit `0, 1, 0`. -/
theorem service_policy_cex :
    assignLoop 2 2 (fun _ => 0) eceGraph [2, 3, 4] 0 false 0 =
      [(0, 0, 0), (1, 0, 1), (1, 0, 2)] ∧
    (List.range 3).map (specIdSeq 2 fun _ => 0) = [0, 1, 0] ∧
    joinRecs 2 eceGraph [2, 3, 4] ((List.range 3).map (specIdSeq 2 fun _ => 0)) =
      [(0, 0, 0), (1, 0, 1), (0, 0, 2)] ∧
    assignLoop 2 2 (fun _ => 0) eceGraph [2, 3, 4] 0 false 0 ≠
      joinRecs 2 eceGraph [2, 3, 4] ((List.range 3).map (specIdSeq 2 fun _ => 0)) := by
  with_unfolding_all decide

/-- C5 (amended): the id sequence the code actually implements: ids
`0, …, services-1` for the first `services` demand points, then the id
`services-1` once more for the next demand point, and only afterwards the
uniform-random draws; all edges of one demand point receive that demand
point's single id. -/
theorem service_policy_amended {services : ℕ} (L : ℕ) (σ : ℕ → ℕ)
    (E : Finset (ℕ × ℕ)) (dems : List ℕ) (hs : 1 ≤ services) :
    assignLoop services L σ E dems 0 false 0 =
      joinRecs L E dems ((List.range dems.length).map (repoIdSeq services σ)) := by
  rw [assignLoop_eq_joinRecs, loopIds_start hs]

/-- C6 (code bug): neither the rejection-sampling loop nor the repair loop
carries an iteration cap or error path.  First conjunct: with one existing
point and a stream that always redraws that same point, the sampling loop
rejects forever (no fuel suffices, and no error value exists to be raised).
Second conjunct: with `service_range = 0` the whole generator diverges in the
demand-point repair loop for every fuel bound, instead of reporting an
infeasible-density error. -/
theorem loops_unbounded_no_error :
    (∀ fuel pos : ℕ,
        sampleOne 1 (fun _ => ((1:ℚ)/2, (1:ℚ)/2)) [((1:ℚ)/2, (1:ℚ)/2)] fuel pos =
          none) ∧
    (∀ sfuel rfuel : ℕ,
        generate 1 1 1 0 rhoDiv (fun _ => 0) (fun _ => 0) (fun _ => 0) sfuel rfuel =
          GenResult.diverged) := by
  constructor
  · intro fuel
    induction fuel with
    | zero => intro pos; rfl
    | succ f ih =>
      intro pos
      have htc : tooClose 1 [((1:ℚ)/2, (1:ℚ)/2)]
          ((fun _ : ℕ => ((1:ℚ)/2, (1:ℚ)/2)) pos) = true := by
        show tooClose 1 [((1:ℚ)/2, (1:ℚ)/2)] ((1:ℚ)/2, (1:ℚ)/2) = true
        with_unfolding_all decide
      rw [sampleOne, htc, if_pos rfl]
      exact ih (pos + 1)
  · exact generate_div

/-- C7: with `services > points` the generator halts with the configuration
error before consuming any randomness: the result is the same error for every
coordinate, randint and cost stream, and no sampling, record or cost is
produced. -/
theorem config_error_preflight (services L P : ℕ) (sr2 : ℚ) (ρ : ℕ → Point)
    (σ : ℕ → ℕ) (γo γe : ℕ → ℚ) (sfuel rfuel : ℕ) (h : P < services) :
    generate services L P sr2 ρ σ γo γe sfuel rfuel =
      .configError "Error: more services than demand points requested. Exiting." := by
  unfold generate
  rw [if_pos h]

/-- C8: the output of a completed run has exactly one row per edge of the
repaired graph; the rows are the records sorted ascending by
`(service, location, point)`; the final table (the positional concatenation
with the two cost side tables) also has exactly one row per edge; and the
opening-cost / equip-cost columns are populated exactly on the first
`locations` / `services` rows. -/
theorem output_table_shape {services L P : ℕ} {sr2 : ℚ} {ρ : ℕ → Point}
    {σ : ℕ → ℕ} {γo γe : ℕ → ℚ} {sfuel rfuel : ℕ} {out : Output}
    (h : generate services L P sr2 ρ σ γo γe sfuel rfuel = .ok out) :
    out.sortedRecords.length = out.graph.card ∧
    List.Sorted tripleLe out.sortedRecords ∧
    out.records.Perm out.sortedRecords ∧
    out.table.length = out.graph.card ∧
    (∀ i, i < out.table.length →
      ((out.table.getD i default).openingCost ≠ none ↔ i < L) ∧
      ((out.table.getD i default).equipCost ≠ none ↔ i < services)) := by
  obtain ⟨hsp, st0, st1, st2, hi, h1, h2, -, hgraph, hrecs, hsort, hoc, hec, htable⟩ :=
    generate_ok_inv h
  have hcross := pipeline_cross hi h1 h2
  have hcard : out.records.length = st2.E.card := by
    rw [hrecs, assignLoop_length, card_eq_sum_neighbors hcross]
  have hperm : out.records.Perm out.sortedRecords := by
    rw [hsort]
    exact (List.perm_insertionSort tripleLe out.records).symm
  have hslen : out.sortedRecords.length = st2.E.card := by
    rw [← hperm.length_eq, hcard]
  have hocl : out.openingCosts.length = L := by
    rw [hoc]
    unfold openingCosts
    simp
  have hecl : out.equipCosts.length = services := by
    rw [hec]
    unfold equipCosts
    simp
  have hgeL : L ≤ st2.E.card := by
    refine card_ge_locs hcross fun n hn => ?_
    exact repairLocs_deg h2 n (by simp [locIdxs, List.mem_range, hn])
  have hgeP : P ≤ st2.E.card := by
    refine card_ge_points hcross fun d hd => ?_
    have hb : d < L + P := by
      unfold demIdxs at hd
      rw [List.mem_range'_1] at hd
      omega
    exact finalState_deg h1 h2 d hb
  have htlen : out.table.length = st2.E.card := by
    rw [htable]
    unfold finalTable
    rw [List.length_map, List.length_range, hslen, hocl, hecl]
    omega
  refine ⟨by rw [hslen, hgraph], ?_, hperm, by rw [htlen, hgraph], ?_⟩
  · rw [hsort]
    exact List.sorted_insertionSort tripleLe out.records
  · intro i hi2
    have hiE : i < st2.E.card := by rw [← htlen]; exact hi2
    have hrow : out.table.getD i default =
        { service := (out.sortedRecords[i]?).map fun t => t.1
          location := (out.sortedRecords[i]?).map fun t => t.2.1
          point := (out.sortedRecords[i]?).map fun t => t.2.2
          openingCost := out.openingCosts[i]?
          equipCost := out.equipCosts[i]? } := by
      rw [htable]
      unfold finalTable
      rw [List.getD_eq_getElem?_getD, List.getElem?_map]
      have hir : i < max out.sortedRecords.length
          (max out.openingCosts.length out.equipCosts.length) := by
        rw [hslen]
        omega
      rw [List.getElem?_range hir]
      rfl
    rw [hrow]
    constructor
    · show out.openingCosts[i]? ≠ none ↔ i < L
      rw [← hocl, Ne, List.getElem?_eq_none_iff]
      omega
    · show out.equipCosts[i]? ≠ none ↔ i < services
      rw [← hecl, Ne, List.getElem?_eq_none_iff]
      omega

/-- C10: the repair phase only adds edges and only relocates isolated nodes.
Conjuncts: (1)/(2) a completed repair step on one node only grows the edge set
and moves no other node's coordinate; (3)/(4) a node with nonzero degree when
its repair iteration starts is skipped with the state unchanged; (5) a demand
point with nonzero degree when the demand pass reaches it keeps its coordinate
through the rest of that pass; (6) the location pass moves no node outside its
list (hence no demand point); (7) the edge set right after same-class
filtering is a subset of the final graph. -/
theorem repair_monotone_frame :
    (∀ (sr2 md2 : ℚ) (ρ : ℕ → Point) (L sfuel dem rfuel : ℕ) (st st' : St),
        repairDemNode sr2 md2 ρ L sfuel dem rfuel st = some st' →
        st.E ⊆ st'.E ∧
          ∀ j, j ≠ dem → st'.cs.getD j (0, 0) = st.cs.getD j (0, 0)) ∧
    (∀ (sr2 md2 : ℚ) (ρ : ℕ → Point) (L T sfuel loc rfuel : ℕ) (st st' : St),
        repairLocNode sr2 md2 ρ L T sfuel loc rfuel st = some st' →
        st.E ⊆ st'.E ∧
          ∀ j, j ≠ loc → st'.cs.getD j (0, 0) = st.cs.getD j (0, 0)) ∧
    (∀ (sr2 md2 : ℚ) (ρ : ℕ → Point) (L sfuel dem rfuel : ℕ) (st : St),
        degree st.E dem ≠ 0 →
        repairDemNode sr2 md2 ρ L sfuel dem rfuel st = some st) ∧
    (∀ (sr2 md2 : ℚ) (ρ : ℕ → Point) (L T sfuel loc rfuel : ℕ) (st : St),
        degree st.E loc ≠ 0 →
        repairLocNode sr2 md2 ρ L T sfuel loc rfuel st = some st) ∧
    (∀ (sr2 md2 : ℚ) (ρ : ℕ → Point) (L sfuel rfuel : ℕ) (l₁ l₂ : List ℕ)
        (dem : ℕ) (st st₁ st' : St),
        repairDems sr2 md2 ρ L sfuel rfuel l₁ st = some st₁ →
        repairDems sr2 md2 ρ L sfuel rfuel (l₁ ++ dem :: l₂) st = some st' →
        degree st₁.E dem ≠ 0 → dem ∉ l₂ →
        st'.cs.getD dem (0, 0) = st₁.cs.getD dem (0, 0)) ∧
    (∀ (sr2 md2 : ℚ) (ρ : ℕ → Point) (L T sfuel rfuel : ℕ) (locs : List ℕ)
        (j : ℕ) (st st' : St),
        repairLocs sr2 md2 ρ L T sfuel rfuel locs st = some st' → j ∉ locs →
        st'.cs.getD j (0, 0) = st.cs.getD j (0, 0)) ∧
    (∀ (services L P : ℕ) (sr2 : ℚ) (ρ : ℕ → Point) (σ : ℕ → ℕ)
        (γo γe : ℕ → ℚ) (sfuel rfuel : ℕ) (st0 : St) (out : Output),
        generate services L P sr2 ρ σ γo γe sfuel rfuel = .ok out →
        initialState L P sr2 (sr2 / 100) ρ sfuel = some st0 →
        st0.E ⊆ out.graph) := by
  refine ⟨?_, ?_, ?_, ?_, ?_, ?_, ?_⟩
  · intro sr2 md2 ρ L sfuel dem rfuel st st' h
    exact ⟨repairDemNode_sub h, repairDemNode_frame h⟩
  · intro sr2 md2 ρ L T sfuel loc rfuel st st' h
    exact ⟨repairLocNode_sub h, repairLocNode_frame h⟩
  · intro sr2 md2 ρ L sfuel dem rfuel st h
    exact repairDemNode_skip h
  · intro sr2 md2 ρ L T sfuel loc rfuel st h
    exact repairLocNode_skip h
  · intro sr2 md2 ρ L sfuel rfuel l₁ l₂ dem st st₁ st' h1 h2 hdeg hnotin
    rw [repairDems_append, h1, Option.some_bind] at h2
    rw [repairDems, repairDemNode_skip hdeg] at h2
    dsimp only at h2
    exact repairDems_frame h2 dem hnotin
  · intro sr2 md2 ρ L T sfuel rfuel locs j st st' h hj
    exact repairLocs_frame h j hj
  · intro services L P sr2 ρ σ γo γe sfuel rfuel st0 out hok hi
    obtain ⟨-, st0', st1, st2, hi', h1, h2, -, hgraph, -⟩ := generate_ok_inv hok
    rw [hi] at hi'
    have hst : st0 = st0' := by injection hi'
    subst hst
    rw [hgraph]
    exact Finset.Subset.trans (repairDems_sub h1) (repairLocs_sub h2)

/-! ### Witnesses: a small completed run and concrete instantiations -/

theorem genW :
    generate 1 1 1 1 rhoW (fun _ => 0) (fun _ => 0) (fun _ => 0) 3 3 = .ok outW := by
  have hinit : initialState 1 1 1 ((1:ℚ)/100) rhoW 3 = some stW := by
    with_unfolding_all decide
  have hdem : repairDems 1 ((1:ℚ)/100) rhoW 1 3 3 (demIdxs 1 1) stW = some stW := by
    with_unfolding_all decide
  have hloc : repairLocs 1 ((1:ℚ)/100) rhoW 1 (1 + 1) 3 3 (locIdxs 1) stW = some stW := by
    with_unfolding_all decide
  have hrec : assignLoop 1 1 (fun _ => 0) stW.E (demIdxs 1 1) 0 false 0 = [(0, 0, 0)] := by
    decide
  have hsrt : List.insertionSort tripleLe [((0:ℕ), (0:ℕ), (0:ℕ))] = [(0, 0, 0)] := by
    decide
  have hocw : openingCosts (fun _ => 0) 1 = [4000] := by with_unfolding_all decide
  have hecw : equipCosts (fun _ => 0) 1 = [200] := by with_unfolding_all decide
  have htab : finalTable [(0, 0, 0)] [4000] [200] = outW.table := by decide
  unfold generate
  rw [if_neg (by omega)]
  dsimp only
  rw [hinit]
  dsimp only
  rw [hdem]
  dsimp only
  rw [hloc]
  dsimp only
  rw [hrec, hsrt, hocw, hecw, htab]
  rfl

theorem serviceIds_exact_witness :
    generate 1 1 1 1 rhoW (fun _ => 0) (fun _ => 0) (fun _ => 0) 3 3 = .ok outW ∧
    (outW.records.map Prod.fst).toFinset = Finset.range 1 :=
  ⟨genW, serviceIds_exact (le_refl 1) (fun _ => Nat.zero_lt_one) genW⟩

theorem repair_degrees_pos_witness :
    1 ≤ degree outW.graph 0 ∧ 1 ≤ degree outW.graph 1 :=
  ⟨repair_degrees_pos genW 0 (by omega), repair_degrees_pos genW 1 (by omega)⟩

theorem coords_pairwise_far_witness :
    List.Pairwise (Far ((1:ℚ) / 100)) outW.coords :=
  coords_pairwise_far genW

theorem bipartite_after_filter_witness : CrossOnly 1 (1 + 1) outW.graph :=
  bipartite_after_filter genW

theorem service_policy_amended_witness :
    assignLoop 2 2 (fun _ => 0) eceGraph [2, 3, 4] 0 false 0 =
      joinRecs 2 eceGraph [2, 3, 4]
        ((List.range ([2, 3, 4] : List ℕ).length).map (repoIdSeq 2 fun _ => 0)) :=
  service_policy_amended 2 (fun _ => 0) eceGraph [2, 3, 4] (by omega)

theorem config_error_preflight_witness :
    generate 5 4 3 1 (fun _ => (0, 0)) (fun _ => 0) (fun _ => 0) (fun _ => 0) 1 1 =
      .configError "Error: more services than demand points requested. Exiting." :=
  config_error_preflight 5 4 3 1 (fun _ => (0, 0)) (fun _ => 0) (fun _ => 0)
    (fun _ => 0) 1 1 (by omega)

theorem output_table_shape_witness :
    outW.sortedRecords.length = outW.graph.card ∧
    List.Sorted tripleLe outW.sortedRecords ∧
    outW.records.Perm outW.sortedRecords ∧
    outW.table.length = outW.graph.card ∧
    (((outW.table.getD 0 default).openingCost ≠ none ↔ 0 < 1) ∧
      ((outW.table.getD 0 default).equipCost ≠ none ↔ 0 < 1)) := by
  obtain ⟨a, b, c, d, e⟩ := output_table_shape genW
  exact ⟨a, b, c, d, e 0 (by with_unfolding_all decide)⟩

theorem repair_monotone_frame_witness :
    repairDemNode 1 ((1:ℚ)/100) rhoW 1 3 1 3 stW = some stW ∧
    repairLocNode 1 ((1:ℚ)/100) rhoW 1 2 3 0 3 stW = some stW ∧
    stW.E ⊆ stW.E ∧
    stW.cs.getD 0 (0, 0) = stW.cs.getD 0 (0, 0) ∧
    stW.cs.getD 1 (0, 0) = stW.cs.getD 1 (0, 0) ∧
    stW.E ⊆ outW.graph := by
  have hdegD : degree stW.E 1 ≠ 0 := by with_unfolding_all decide
  have hdegL : degree stW.E 0 ≠ 0 := by with_unfolding_all decide
  have hskipD := repair_monotone_frame.2.2.1 1 ((1:ℚ)/100) rhoW 1 3 1 3 stW hdegD
  have hskipL := repair_monotone_frame.2.2.2.1 1 ((1:ℚ)/100) rhoW 1 2 3 0 3 stW hdegL
  have hpass : repairDems 1 ((1:ℚ)/100) rhoW 1 3 3 ([] ++ 1 :: []) stW = some stW := by
    simp only [List.nil_append]
    rw [repairDems, hskipD]
    rfl
  have hinit : initialState 1 1 1 ((1:ℚ)/100) rhoW 3 = some stW := by
    with_unfolding_all decide
  exact ⟨hskipD, hskipL,
    (repair_monotone_frame.1 1 ((1:ℚ)/100) rhoW 1 3 1 3 stW stW hskipD).1,
    (repair_monotone_frame.1 1 ((1:ℚ)/100) rhoW 1 3 1 3 stW stW hskipD).2 0 (by omega),
    repair_monotone_frame.2.2.2.2.1 1 ((1:ℚ)/100) rhoW 1 3 3 [] [] 1 stW stW stW
      rfl hpass hdegD (List.not_mem_nil 1),
    repair_monotone_frame.2.2.2.2.2.2 1 1 1 1 rhoW (fun _ => 0) (fun _ => 0)
      (fun _ => 0) 3 3 stW outW genW hinit⟩

end MSLSCP
